import Mathlib

/-!
Verification of the page-framed container decoder in `convert_recording.py`
(wgo2tool repository): the lacing-table decoder of `page_reader`, the
`OggPCMHandler` and `W2GoHandler` codec handlers, and the `decode` stream
router.  Bytes are modelled as `Nat` values (`< 256` in real inputs),
byte strings as `List Nat`, and the fallible Python code as `Except`.
-/

/-- Lacing-table decode loop of `page_reader` (convert_recording.py lines
84-90), with the running `cur_length` accumulator made explicit: a byte of
`0xff` adds 255 to the accumulator; any other byte `rsl` finalises one
segment of length `rsl + cur_length` and resets the accumulator. -/
def decodeLacingAux : List Nat → Nat → List Nat
  | [], _ => []
  | rsl :: rest, cur =>
    if rsl = 255 then decodeLacingAux rest (cur + 255)
    else (rsl + cur) :: decodeLacingAux rest 0

/-- Full lacing-table decode: the accumulator starts at 0. -/
def decodeLacing (table : List Nat) : List Nat :=
  decodeLacingAux table 0

/-- Payload slicing of `page_reader` (lines 92-94): one `take` of each
decoded segment length, in order. -/
def sliceSegments : List Nat → List Nat → List (List Nat)
  | [], _ => []
  | l :: ls, payload => payload.take l :: sliceSegments ls (payload.drop l)

/-- Minimal re-encoding of one segment length into lacing bytes, following
the spec's words: a run of 255s followed by the remainder byte. -/
def encodeLength (n : Nat) : List Nat :=
  List.replicate (n / 255) 255 ++ [n % 255]

/-- Minimal re-encoding of a whole segment-length list into a lacing table,
following the spec's words (used only to state the round-trip property). -/
def encodeLacing (lengths : List Nat) : List Nat :=
  (lengths.map encodeLength).flatten

lemma decodeLacingAux_replicate (k : Nat) (rest : List Nat) (cur : Nat) :
    decodeLacingAux (List.replicate k 255 ++ rest) cur
      = decodeLacingAux rest (cur + 255 * k) := by
  induction k generalizing cur with
  | zero => simp
  | succ n ih =>
    rw [List.replicate_succ, List.cons_append]
    show decodeLacingAux (List.replicate n 255 ++ rest) (cur + 255) = _
    rw [ih]
    congr 1
    ring

lemma decodeLacingAux_encodeLength (n : Nat) (t : List Nat) :
    decodeLacingAux (encodeLength n ++ t) 0 = n :: decodeLacingAux t 0 := by
  unfold encodeLength
  rw [List.append_assoc, decodeLacingAux_replicate]
  have h : n % 255 ≠ 255 := by omega
  show decodeLacingAux (n % 255 :: t) (0 + 255 * (n / 255)) = _
  rw [decodeLacingAux, if_neg h]
  congr 1
  omega

lemma decodeLacing_encodeLacing (lengths : List Nat) :
    decodeLacing (encodeLacing lengths) = lengths := by
  induction lengths with
  | nil => rfl
  | cons n rest ih =>
    show decodeLacingAux (encodeLength n ++ (rest.map encodeLength).flatten) 0 = n :: rest
    rw [decodeLacingAux_encodeLength]
    exact congrArg (n :: ·) ih

lemma decodeLacingAux_append_replicate (t : List Nat) (k : Nat) (cur : Nat) :
    decodeLacingAux (t ++ List.replicate k 255) cur = decodeLacingAux t cur := by
  induction t generalizing cur with
  | nil =>
    have h := decodeLacingAux_replicate k [] cur
    rw [List.append_nil] at h
    rw [List.nil_append, h]
    rfl
  | cons b t ih =>
    rw [List.cons_append]
    by_cases hb : b = 255
    · rw [decodeLacingAux, if_pos hb, decodeLacingAux, if_pos hb, ih]
    · rw [decodeLacingAux, if_neg hb, decodeLacingAux, if_neg hb, ih]

/-- C3: the lacing-table decoder walks the table left to right with an
accumulator starting at 0, adds 255 and continues on a byte of 255, and on
any byte `v < 255` emits one segment of length `accumulator + v` and resets
the accumulator; in particular `[255,255,10]` decodes to `[520]`, `[0]` to
`[0]`, `[5,3]` to `[5,3]`, and `[255,0]` to `[255]`. -/
theorem lacing_decode_spec :
    (∀ rest cur, decodeLacingAux (255 :: rest) cur = decodeLacingAux rest (cur + 255)) ∧
    (∀ v rest cur, v < 255 →
      decodeLacingAux (v :: rest) cur = (cur + v) :: decodeLacingAux rest 0) ∧
    decodeLacing [255, 255, 10] = [520] ∧
    decodeLacing [0] = [0] ∧
    decodeLacing [5, 3] = [5, 3] ∧
    decodeLacing [255, 0] = [255] := by
  refine ⟨fun rest cur => ?_, fun v rest cur hv => ?_, by decide, by decide, by decide, by decide⟩
  · rw [decodeLacingAux, if_pos rfl]
  · rw [decodeLacingAux, if_neg (by omega), Nat.add_comm]

/-- Witness for C3: the general clauses of `lacing_decode_spec` applied at
concrete inputs. -/
theorem lacing_decode_spec_witness :
    decodeLacingAux [255, 10] 0 = decodeLacingAux [10] (0 + 255) ∧
    decodeLacingAux [10] 255 = (255 + 10) :: decodeLacingAux [] 0 :=
  ⟨lacing_decode_spec.1 [10] 0, lacing_decode_spec.2.1 10 [] 255 (by decide)⟩

/-- C6: round-trip of the lacing scheme — re-encoding the segment-length
list decoded from any lacing table into a minimal table (runs of 255
followed by the remainder byte) and decoding again yields the identical
segment-length list. -/
theorem lacing_roundtrip (table : List Nat) :
    decodeLacing (encodeLacing (decodeLacing table)) = decodeLacing table :=
  decodeLacing_encodeLacing (decodeLacing table)

/-- C8: a lacing table ending in a run of 255 bytes not terminated by a byte
`v < 255` silently discards the accumulated partial length — appending any
run of 255s to a table changes nothing of the decoded lengths, `[255]` and
`[255,255]` decode to no segments at all, and consequently no payload bytes
are sliced for the dangling run and no error is possible (`decodeLacing` is
a total function). -/
theorem lacing_trailing_run_discarded :
    (∀ t k, decodeLacing (t ++ List.replicate k 255) = decodeLacing t) ∧
    decodeLacing [255] = [] ∧
    decodeLacing [255, 255] = [] ∧
    (∀ payload, sliceSegments (decodeLacing [255]) payload = []) ∧
    (decodeLacing [255]).sum = 0 :=
  ⟨fun t k => decodeLacingAux_append_replicate t k 0, rfl, rfl, fun _ => rfl, rfl⟩

/-- Errors raised by the Python code, one constructor per distinct raise
site (Python distinguishes them by exception class and message). -/
inductive Err where
  | unsupportedSplitPackets
  | unknownCodec (tag : List Nat)
  | unknownSubtype (packet : List Nat)
  | pcmHeaderAssert
  | structError
  | keyError (serial : Nat)
  | indexError
deriving DecidableEq, Repr

/-- Telemetry sub-type tag of `W2GoHandler` (`'P'` or `'S'`). -/
inductive W2GoType where
  | peak
  | status
deriving DecidableEq, Repr

/-- Mutable state of `W2GoHandler` (convert_recording.py lines 151-185):
`done_packets`, the `type` attribute (unset until the header packet), the
byte accumulator `buffer`, the elapsed-second counter `seconds`, and the
marker list `markers`. -/
structure W2GoState where
  done_packets : Nat
  type : Option W2GoType
  buffer : List Nat
  seconds : Nat
  markers : List Nat
deriving DecidableEq, Repr

/-- `W2GoHandler.__init__`. -/
def W2GoState.start : W2GoState :=
  { done_packets := 0, type := none, buffer := [], seconds := 0, markers := [] }

/-- The `while len(self.buffer) > 16` loop of `handle_status` (lines
179-185), written with an explicit fuel parameter so that it stays
structurally recursive; one unit of fuel per loop iteration suffices since
each iteration removes 16 bytes.  Returns the final
(buffer, seconds, markers). -/
def statusLoopF : Nat → List Nat → Nat → List Nat → List Nat × Nat × List Nat
  | 0, buf, secs, mks => (buf, secs, mks)
  | fuel + 1, buf, secs, mks =>
    if 16 < buf.length then
      let status := buf.take 16
      let mks1 :=
        if status.getD 4 0 ≠ 255 ∧ status.getD 4 0 &&& 4 ≠ 0 then mks ++ [secs] else mks
      statusLoopF fuel (buf.drop 16) (secs + 1) mks1
    else (buf, secs, mks)

/-- The status-record loop run to completion: `buf.length` units of fuel
are always enough. -/
def statusRun (buf : List Nat) (secs : Nat) (mks : List Nat) : List Nat × Nat × List Nat :=
  statusLoopF buf.length buf secs mks

lemma statusLoopF_of_not_gt (fuel : Nat) (buf : List Nat) (secs : Nat) (mks : List Nat)
    (h : ¬ 16 < buf.length) : statusLoopF fuel buf secs mks = (buf, secs, mks) := by
  cases fuel with
  | zero => rfl
  | succ n => rw [statusLoopF, if_neg h]

lemma statusLoopF_step (fuel : Nat) (buf : List Nat) (secs : Nat) (mks : List Nat)
    (h : 16 < buf.length) :
    statusLoopF (fuel + 1) buf secs mks
      = statusLoopF fuel (buf.drop 16) (secs + 1)
          (if (buf.take 16).getD 4 0 ≠ 255 ∧ (buf.take 16).getD 4 0 &&& 4 ≠ 0
           then mks ++ [secs] else mks) := by
  conv_lhs => rw [statusLoopF]
  rw [if_pos h]

lemma statusLoopF_succ_of_le (fuel : Nat) (buf : List Nat) (secs : Nat) (mks : List Nat)
    (h : buf.length ≤ fuel) :
    statusLoopF (fuel + 1) buf secs mks = statusLoopF fuel buf secs mks := by
  induction fuel generalizing buf secs mks with
  | zero =>
    have hb : ¬ 16 < buf.length := by omega
    rw [statusLoopF_of_not_gt _ _ _ _ hb, statusLoopF_of_not_gt _ _ _ _ hb]
  | succ n ih =>
    by_cases h16 : 16 < buf.length
    · rw [statusLoopF_step _ _ _ _ h16, statusLoopF_step _ _ _ _ h16]
      exact ih _ _ _ (by simp [List.length_drop]; omega)
    · rw [statusLoopF_of_not_gt _ _ _ _ h16, statusLoopF_of_not_gt _ _ _ _ h16]

lemma statusLoopF_eq_statusRun (fuel : Nat) (buf : List Nat) (secs : Nat) (mks : List Nat)
    (h : buf.length ≤ fuel) : statusLoopF fuel buf secs mks = statusRun buf secs mks := by
  obtain ⟨k, rfl⟩ : ∃ k, fuel = buf.length + k := ⟨fuel - buf.length, by omega⟩
  induction k with
  | zero => rfl
  | succ n ih =>
    rw [show buf.length + (n + 1) = (buf.length + n) + 1 by omega,
      statusLoopF_succ_of_le _ _ _ _ (by omega)]
    exact ih (by omega)

/-- Unfolding equation for `statusRun` when a full record plus at least one
more byte is buffered. -/
lemma statusRun_step (buf : List Nat) (secs : Nat) (mks : List Nat)
    (h : 16 < buf.length) :
    statusRun buf secs mks
      = statusRun (buf.drop 16) (secs + 1)
          (if (buf.take 16).getD 4 0 ≠ 255 ∧ (buf.take 16).getD 4 0 &&& 4 ≠ 0
           then mks ++ [secs] else mks) := by
  have hlen : buf.length = (buf.length - 1) + 1 := by omega
  rw [statusRun, hlen, statusLoopF_step _ _ _ _ h]
  exact statusLoopF_eq_statusRun _ _ _ _ (by simp [List.length_drop]; omega)

/-- `statusRun` does nothing when at most 16 bytes are buffered. -/
lemma statusRun_of_not_gt (buf : List Nat) (secs : Nat) (mks : List Nat)
    (h : ¬ 16 < buf.length) : statusRun buf secs mks = (buf, secs, mks) :=
  statusLoopF_of_not_gt _ _ _ _ h

/-- The residual buffer left by `statusRun` never holds more than 16 bytes. -/
lemma statusRun_residual (buf : List Nat) (secs : Nat) (mks : List Nat) :
    ¬ 16 < (statusRun buf secs mks).1.length := by
  obtain ⟨fuel, hf⟩ : ∃ fuel, buf.length ≤ fuel := ⟨buf.length, le_refl _⟩
  induction fuel generalizing buf secs mks with
  | zero =>
    rw [statusRun_of_not_gt _ _ _ (by omega)]
    show ¬ 16 < buf.length
    omega
  | succ n ih =>
    by_cases h16 : 16 < buf.length
    · rw [statusRun_step _ _ _ h16]
      exact ih _ _ _ (by simp [List.length_drop]; omega)
    · rw [statusRun_of_not_gt _ _ _ h16]
      exact h16

/-- Splitting the incoming bytes into packets does not change the final
state: running the loop on a first chunk and then on the residual plus a
second chunk equals running it on the concatenation. -/
lemma statusRun_append (b1 b2 : List Nat) (secs : Nat) (mks : List Nat) :
    statusRun ((statusRun b1 secs mks).1 ++ b2)
        (statusRun b1 secs mks).2.1 (statusRun b1 secs mks).2.2
      = statusRun (b1 ++ b2) secs mks := by
  obtain ⟨fuel, hf⟩ : ∃ fuel, b1.length ≤ fuel := ⟨b1.length, le_refl _⟩
  induction fuel generalizing b1 secs mks with
  | zero =>
    rw [statusRun_of_not_gt b1 _ _ (by omega)]
  | succ n ih =>

    by_cases h16 : 16 < b1.length
    · have h16' : 16 < (b1 ++ b2).length := by
        rw [List.length_append]; omega
      rw [statusRun_step b1 _ _ h16, statusRun_step (b1 ++ b2) _ _ h16',
        List.take_append_of_le_length (by omega), List.drop_append_of_le_length (by omega)]
      exact ih _ _ _ (by simp [List.length_drop]; omega)
    · rw [statusRun_of_not_gt b1 _ _ h16]

/-- `W2GoHandler.handle_status` (lines 176-185): extend the accumulator
with the packet bytes, then run the record-consumption loop. -/
def W2GoState.handle_status (s : W2GoState) (packet : List Nat) : W2GoState :=
  let r := statusRun (s.buffer ++ packet) s.seconds s.markers
  { s with buffer := r.1, seconds := r.2.1, markers := r.2.2 }

/-- `W2GoHandler.handle_header` (lines 167-174): `packet[8:9]` selects the
sub-type, any other value raises. -/
def W2GoState.handle_header (s : W2GoState) (packet : List Nat) : Except Err W2GoState :=
  if (packet.drop 8).take 1 = [80] then .ok { s with type := some W2GoType.peak }
  else if (packet.drop 8).take 1 = [83] then .ok { s with type := some W2GoType.status }
  else .error (.unknownSubtype packet)

/-- `W2GoHandler.handle_packet` (lines 159-165): dispatch on the packet
counter and sub-type, then increment `done_packets`. -/
def W2GoState.handle_packet (s : W2GoState) (packet : List Nat) : Except Err W2GoState :=
  (if s.done_packets = 0 then s.handle_header packet
   else if s.type = some W2GoType.status then .ok (s.handle_status packet)
   else .ok s) >>= fun s1 =>
  .ok { s1 with done_packets := s1.done_packets + 1 }

/-- A fresh `W2GoHandler` fed a sequence of packets. -/
def w2goRun (packets : List (List Nat)) : Except Err W2GoState :=
  packets.foldlM W2GoState.handle_packet W2GoState.start

lemma exceptOkBind {A B : Type} (x : A) (f : A → Except Err B) :
    (Except.ok x >>= f) = f x := rfl

/-- Feeding packets to a status-sub-type handler only depends on the
concatenation of the delivered bytes. -/
lemma w2go_status_feed (packets : List (List Nat)) (s : W2GoState)
    (hdone : s.done_packets ≠ 0) (htype : s.type = some W2GoType.status)
    (hbuf : ¬ 16 < s.buffer.length) :
    packets.foldlM W2GoState.handle_packet s
      = .ok { done_packets := s.done_packets + packets.length,
               type := some W2GoType.status,
               buffer := (statusRun (s.buffer ++ packets.flatten) s.seconds s.markers).1,
               seconds := (statusRun (s.buffer ++ packets.flatten) s.seconds s.markers).2.1,
               markers := (statusRun (s.buffer ++ packets.flatten) s.seconds s.markers).2.2 } := by
  induction packets generalizing s with
  | nil =>
    rw [List.foldlM_nil, List.flatten_nil, List.append_nil,
      statusRun_of_not_gt _ _ _ hbuf]
    obtain ⟨d, ty, b, sec, m⟩ := s
    simp only at htype hbuf ⊢
    rw [htype]
    rfl
  | cons p ps ih =>
    have hstep : W2GoState.handle_packet s p
        = .ok { done_packets := s.done_packets + 1,
                 type := some W2GoType.status,
                 buffer := (statusRun (s.buffer ++ p) s.seconds s.markers).1,
                 seconds := (statusRun (s.buffer ++ p) s.seconds s.markers).2.1,
                 markers := (statusRun (s.buffer ++ p) s.seconds s.markers).2.2 } := by
      obtain ⟨d, ty, b, sec, m⟩ := s
      simp only at htype hdone ⊢
      simp [W2GoState.handle_packet, W2GoState.handle_status, hdone, htype]
      rfl
    rw [List.foldlM_cons, hstep, exceptOkBind,
      ih _ (by simp) rfl (statusRun_residual _ _ _)]
    have hap := statusRun_append (s.buffer ++ p) ps.flatten s.seconds s.markers
    simp only [List.flatten_cons, List.length_cons, ← List.append_assoc, hap,
      Except.ok.injEq, W2GoState.mk.injEq, and_true, true_and]
    omega

deriving instance DecidableEq for Except

lemma exceptErrorBind {A B : Type} (e : Err) (f : A → Except Err B) :
    (Except.error e >>= f) = Except.error e := rfl

/-- One 16-byte status record whose marker-flag byte (offset 4) is `flag`. -/
def c1record (flag : Nat) : List Nat :=
  [0, 0, 0, 0, flag, 0, 0, 0, 0, 0, 0, 0, 0, 0, 0, 0]

/-- Ten concatenated 16-byte records where records 2, 5 and 9 carry flag
byte `0x04` and all others carry `0xFF`. -/
def c1bytes : List Nat :=
  ((List.range 10).map fun i =>
    c1record (if i = 2 ∨ i = 5 ∨ i = 9 then 4 else 255)).flatten

/-- The `RODEWgo2` codec identifier tag. -/
def rodeTag : List Nat := [82, 79, 68, 69, 87, 103, 111, 50]

/-- A telemetry header packet selecting the status sub-type
(byte `'S'` = 83 at offset 8). -/
def statusHeaderPacket : List Nat := rodeTag ++ [83]

set_option maxRecDepth 4000 in
/-- C1 counterexample: fed the status header and then one packet holding
exactly the ten records of `c1bytes`, the handler's marker list is not
`[2,5,9]` (record 9 is never consumed because the loop runs only while
strictly more than 16 bytes are buffered). -/
theorem w2go_ten_records_cex :
    (w2goRun [statusHeaderPacket, c1bytes]).map W2GoState.markers ≠ .ok [2, 5, 9] := by
  decide

set_option maxRecDepth 4000 in
/-- C1 (amended): for the status sub-stream whose post-header packets
concatenate to the ten records of `c1bytes` (flags `0x04` at record indices
2, 5, 9 and `0xFF` elsewhere), the resulting marker list is exactly
`[2, 5]`: the loop consumes a record only while more than 16 bytes are
buffered, so the final 16-byte record stays in the accumulator
unprocessed. -/
theorem w2go_ten_records_markers (packets : List (List Nat))
    (h : packets.flatten = c1bytes) :
    (w2goRun (statusHeaderPacket :: packets)).map W2GoState.markers = .ok [2, 5] := by
  have hhdr : W2GoState.handle_packet W2GoState.start statusHeaderPacket
      = .ok { done_packets := 1, type := some W2GoType.status,
              buffer := [], seconds := 0, markers := [] } := by decide
  rw [w2goRun, List.foldlM_cons, hhdr, exceptOkBind,
    w2go_status_feed packets _ (by simp) rfl (by simp)]
  simp only [List.nil_append, h]
  rfl

/-- Witness for C1 (amended): the ten records delivered as one packet. -/
theorem w2go_ten_records_markers_witness :
    (w2goRun (statusHeaderPacket :: [c1bytes])).map W2GoState.markers = .ok [2, 5] :=
  w2go_ten_records_markers [c1bytes] (by simp)

/-- The loop preserves the invariant that every marker is below the
elapsed-second counter and the marker list is strictly increasing. -/
lemma statusRun_markers_inv (buf : List Nat) (secs : Nat) (mks : List Nat)
    (h1 : ∀ x ∈ mks, x < secs) (h2 : mks.Pairwise (· < ·)) :
    (∀ x ∈ (statusRun buf secs mks).2.2, x < (statusRun buf secs mks).2.1) ∧
      (statusRun buf secs mks).2.2.Pairwise (· < ·) := by
  obtain ⟨fuel, hf⟩ : ∃ fuel, buf.length ≤ fuel := ⟨buf.length, le_refl _⟩
  induction fuel generalizing buf secs mks with
  | zero =>
    rw [statusRun_of_not_gt _ _ _ (by omega)]
    exact ⟨h1, h2⟩
  | succ n ih =>
    by_cases h16 : 16 < buf.length
    · rw [statusRun_step _ _ _ h16]
      by_cases hflag : (buf.take 16).getD 4 0 ≠ 255 ∧ (buf.take 16).getD 4 0 &&& 4 ≠ 0
      · rw [if_pos hflag]
        refine ih _ _ _ ?_ ?_ (by simp [List.length_drop]; omega)
        · intro x hx
          rcases List.mem_append.1 hx with hx | hx
          · exact Nat.lt_trans (h1 x hx) (Nat.lt_succ_self _)
          · rw [List.mem_singleton.1 hx]
            exact Nat.lt_succ_self _
        · refine List.pairwise_append.2 ⟨h2, List.pairwise_singleton _ _, ?_⟩
          intro x hx y hy
          rw [List.mem_singleton.1 hy]
          exact h1 x hx
      · rw [if_neg hflag]
        refine ih _ _ _ ?_ h2 (by simp [List.length_drop]; omega)
        intro x hx
        exact Nat.lt_trans (h1 x hx) (Nat.lt_succ_self _)
    · rw [statusRun_of_not_gt _ _ _ h16]
      exact ⟨h1, h2⟩

/-- Any successful `handle_packet` call leaves markers and seconds either
untouched or equal to the result of running the status loop. -/
lemma handle_packet_markers (s : W2GoState) (p : List Nat) (s1 : W2GoState)
    (h : s.handle_packet p = .ok s1) :
    (s1.markers = s.markers ∧ s1.seconds = s.seconds) ∨
    (s1.markers = (statusRun (s.buffer ++ p) s.seconds s.markers).2.2 ∧
     s1.seconds = (statusRun (s.buffer ++ p) s.seconds s.markers).2.1) := by
  unfold W2GoState.handle_packet at h
  by_cases hd : s.done_packets = 0
  · rw [if_pos hd] at h
    unfold W2GoState.handle_header at h
    by_cases hp : (p.drop 8).take 1 = [80]
    · rw [if_pos hp, exceptOkBind] at h
      injection h with h
      exact Or.inl ⟨by rw [← h], by rw [← h]⟩
    · rw [if_neg hp] at h
      by_cases hq : (p.drop 8).take 1 = [83]
      · rw [if_pos hq, exceptOkBind] at h
        injection h with h
        exact Or.inl ⟨by rw [← h], by rw [← h]⟩
      · rw [if_neg hq, exceptErrorBind] at h
        exact absurd h (by simp)
  · rw [if_neg hd] at h
    by_cases ht : s.type = some W2GoType.status
    · rw [if_pos ht, exceptOkBind] at h
      injection h with h
      exact Or.inr ⟨by rw [← h]; rfl, by rw [← h]; rfl⟩
    · rw [if_neg ht, exceptOkBind] at h
      injection h with h
      exact Or.inl ⟨by rw [← h], by rw [← h]⟩

lemma w2go_fold_markers_inv (packets : List (List Nat)) (s0 : W2GoState)
    (h1 : ∀ x ∈ s0.markers, x < s0.seconds) (h2 : s0.markers.Pairwise (· < ·))
    (s1 : W2GoState) (h : packets.foldlM W2GoState.handle_packet s0 = .ok s1) :
    (∀ x ∈ s1.markers, x < s1.seconds) ∧ s1.markers.Pairwise (· < ·) := by
  induction packets generalizing s0 with
  | nil =>
    rw [List.foldlM_nil] at h
    injection h with h
    rw [← h]
    exact ⟨h1, h2⟩
  | cons p ps ih =>
    rw [List.foldlM_cons] at h
    cases hstep : W2GoState.handle_packet s0 p with
    | error e =>
      rw [hstep, exceptErrorBind] at h
      exact absurd h (by simp)
    | ok s2 =>
      rw [hstep, exceptOkBind] at h
      rcases handle_packet_markers s0 p s2 hstep with ⟨hm, hs⟩ | ⟨hm, hs⟩
      · exact ih s2 (by rw [hm, hs]; exact h1) (by rw [hm]; exact h2) h
      · have hi := statusRun_markers_inv (s0.buffer ++ p) s0.seconds s0.markers h1 h2
        exact ih s2 (by rw [hm, hs]; exact hi.1) (by rw [hm]; exact hi.2) h

/-- C10: the marker list produced by the telemetry handler is strictly
increasing — at most one marker is appended per consumed 16-byte record and
the elapsed-second counter is incremented after every record, so each
appended marker exceeds every earlier one. -/
theorem markers_strictly_increasing (packets : List (List Nat)) (s : W2GoState)
    (h : w2goRun packets = .ok s) : s.markers.Pairwise (· < ·) :=
  (w2go_fold_markers_inv packets W2GoState.start (by simp [W2GoState.start])
    (by simp [W2GoState.start]) s h).2

set_option maxRecDepth 4000 in
/-- Witness for C10: the concrete run of C1 yields the strictly increasing
marker list `[2, 5]`. -/
theorem markers_strictly_increasing_witness :
    ({ done_packets := 2, type := some W2GoType.status, buffer := c1record 4,
       seconds := 9, markers := [2, 5] } : W2GoState).markers.Pairwise (· < ·) :=
  markers_strictly_increasing [statusHeaderPacket, c1bytes] _ (by decide)

/-- Little-endian interpretation of a byte list, least significant first
(as `struct.unpack('<...')` does field-wise). -/
def leNat : List Nat → Nat
  | [] => 0
  | b :: rest => b + 256 * leNat rest

/-- Mutable state of `OggPCMHandler` (convert_recording.py lines 117-149):
the extra-header-packet count, the packet counter, the audio-sink
configuration performed by `handle_header` (`none` until the header is
parsed), and the ordered frame blocks passed to `writeframes`. -/
structure OggPCMState where
  num_extra_header_packets : Nat
  done_packets : Nat
  wavParams : Option (Nat × Nat × Nat)
  frames : List (List Nat)
deriving DecidableEq, Repr

/-- `OggPCMHandler.__init__`. -/
def OggPCMState.start : OggPCMState :=
  { num_extra_header_packets := 0, done_packets := 0, wavParams := none, frames := [] }

/-- `OggPCMHandler.handle_header` (lines 136-149):
`struct.unpack('<HHLLBBHL', packet[8:])` requires exactly 20 bytes after
offset 8; major, minor must be 0 and the PCM format code must be 4; on
success the sink is configured with (channel count, sample width 3,
sample rate) and the extra-header-packet count is remembered (the bit
depth and max-frames-per-packet fields are parsed but unused). -/
def OggPCMState.handle_header (s : OggPCMState) (packet : List Nat) : Except Err OggPCMState :=
  if packet.length = 28 then
    if leNat ((packet.drop 8).take 2) = 0 ∧ leNat (((packet.drop 8).drop 2).take 2) = 0 ∧
        leNat (((packet.drop 8).drop 4).take 4) = 4 then
      .ok { s with
            num_extra_header_packets := leNat (((packet.drop 8).drop 16).take 4),
            wavParams := some ((packet.drop 8).getD 13 0, 3,
              leNat (((packet.drop 8).drop 8).take 4)) }
    else .error .pcmHeaderAssert
  else .error .structError

/-- `OggPCMHandler.handle_packet` (lines 124-134): packet 0 is the header,
packets `1 .. 1 + num_extra_header_packets` are skipped, all later packets
are written verbatim to the sink; `done_packets` always increments. -/
def OggPCMState.handle_packet (s : OggPCMState) (packet : List Nat) : Except Err OggPCMState :=
  (if s.done_packets = 0 then s.handle_header packet
   else if s.done_packets ≤ 1 + s.num_extra_header_packets then .ok s
   else .ok { s with frames := s.frames ++ [packet] }) >>= fun s1 =>
  .ok { s1 with done_packets := s1.done_packets + 1 }

/-- A fresh `OggPCMHandler` fed a sequence of packets. -/
def pcmRun (packets : List (List Nat)) : Except Err OggPCMState :=
  packets.foldlM OggPCMState.handle_packet OggPCMState.start

/-- After the header, feeding further packets never fails: the first
`2 + extra - done` of them are skipped and the remainder is appended
verbatim, in order. -/
lemma pcm_feed (rest : List (List Nat)) (s : OggPCMState)
    (hdone : s.done_packets ≠ 0) :
    rest.foldlM OggPCMState.handle_packet s
      = .ok { s with
              done_packets := s.done_packets + rest.length,
              frames := s.frames
                ++ rest.drop (2 + s.num_extra_header_packets - s.done_packets) } := by
  induction rest generalizing s with
  | nil =>
    rw [List.foldlM_nil, List.drop_nil, List.append_nil]
    obtain ⟨e, d, w, f⟩ := s
    simp only [List.length_nil, Nat.add_zero]
    rfl
  | cons p ps ih =>
    by_cases hskip : s.done_packets ≤ 1 + s.num_extra_header_packets
    · have hstep : OggPCMState.handle_packet s p
          = .ok { s with done_packets := s.done_packets + 1 } := by
        unfold OggPCMState.handle_packet
        rw [if_neg hdone, if_pos hskip, exceptOkBind]
      rw [List.foldlM_cons, hstep, exceptOkBind, ih _ (by simp)]
      have hdrop : 2 + s.num_extra_header_packets - s.done_packets
          = (2 + s.num_extra_header_packets - (s.done_packets + 1)) + 1 := by omega
      simp only [Except.ok.injEq, OggPCMState.mk.injEq, List.length_cons, hdrop,
        List.drop_succ_cons, and_true, true_and]
      omega
    · have hstep : OggPCMState.handle_packet s p
          = .ok { s with done_packets := s.done_packets + 1,
                         frames := s.frames ++ [p] } := by
        unfold OggPCMState.handle_packet
        rw [if_neg hdone, if_neg hskip, exceptOkBind]
      rw [List.foldlM_cons, hstep, exceptOkBind, ih _ (by simp)]
      have hdrop0 : 2 + s.num_extra_header_packets - s.done_packets = 0 := by omega
      have hdrop1 : 2 + s.num_extra_header_packets - (s.done_packets + 1) = 0 := by omega
      simp only [Except.ok.injEq, OggPCMState.mk.injEq, List.length_cons, hdrop0, hdrop1,
        List.drop_zero, List.append_assoc, List.singleton_append, and_true, true_and]
      omega

/-- C2 (amended): given a valid PCM header packet (28 bytes, major 0,
minor 0, format code 4) followed by further packets, the sink is
configured with the header's channel count, fixed sample width 3 and
sample rate, and the frames written to the sink are exactly the
post-header packets after the first `extra_header_packets + 1` of them:
packets 1 through `extra_header_packets + 1` (inclusive) are ignored and
every packet after that is appended verbatim, in order. -/
theorem pcm_header_then_data (hdr : List Nat) (rest : List (List Nat))
    (hlen : hdr.length = 28)
    (hmaj : leNat ((hdr.drop 8).take 2) = 0)
    (hmin : leNat (((hdr.drop 8).drop 2).take 2) = 0)
    (hfmt : leNat (((hdr.drop 8).drop 4).take 4) = 4) :
    pcmRun (hdr :: rest)
      = .ok { num_extra_header_packets := leNat (((hdr.drop 8).drop 16).take 4),
              done_packets := 1 + rest.length,
              wavParams := some ((hdr.drop 8).getD 13 0, 3,
                leNat (((hdr.drop 8).drop 8).take 4)),
              frames := rest.drop (leNat (((hdr.drop 8).drop 16).take 4) + 1) } := by
  have hhdr : OggPCMState.handle_packet OggPCMState.start hdr
      = .ok { num_extra_header_packets := leNat (((hdr.drop 8).drop 16).take 4),
              done_packets := 1,
              wavParams := some ((hdr.drop 8).getD 13 0, 3,
                leNat (((hdr.drop 8).drop 8).take 4)),
              frames := [] } := by
    unfold OggPCMState.handle_packet OggPCMState.handle_header
    rw [if_pos (show OggPCMState.start.done_packets = 0 from rfl), if_pos hlen,
      if_pos ⟨hmaj, hmin, hfmt⟩, exceptOkBind]
    rfl
  rw [pcmRun, List.foldlM_cons, hhdr, exceptOkBind, pcm_feed _ _ (by simp)]
  simp only [List.nil_append, Except.ok.injEq, OggPCMState.mk.injEq, true_and, and_true]
  congr 1
  omega

/-- The `"PCM     "` codec identifier tag. -/
def pcmTag : List Nat := [80, 67, 77, 32, 32, 32, 32, 32]

/-- A concrete valid PCM header packet: major 0, minor 0, format code 4,
sample rate 48000, bit depth 24, 2 channels, max frames 0, 0 extra header
packets. -/
def c2hdr : List Nat :=
  pcmTag ++ [0, 0, 0, 0, 4, 0, 0, 0, 128, 187, 0, 0, 24, 2, 0, 0, 0, 0, 0, 0]

/-- C2 counterexample: with `extra_header_packets = 0`, the single data
packet following the header (packet 1) is skipped by the handler, so the
sink receives no frame bytes rather than exactly that packet's bytes. -/
theorem pcm_first_data_packet_skipped_cex :
    (pcmRun [c2hdr, [1, 2, 3]]).map OggPCMState.frames ≠ .ok [[1, 2, 3]] := by
  decide

/-- Witness for C2 (amended): header with `extra_header_packets = 0`, one
skipped packet, then one data packet that reaches the sink verbatim. -/
theorem pcm_header_then_data_witness :
    pcmRun [c2hdr, [7, 7], [1, 2, 3]]
      = .ok { num_extra_header_packets := 0, done_packets := 3,
              wavParams := some (2, 3, 48000), frames := [[1, 2, 3]] } := by
  have h := pcm_header_then_data c2hdr [[7, 7], [1, 2, 3]]
    (by decide) (by decide) (by decide) (by decide)
  rw [h]
  rfl

/-- A page as parsed by `page_reader` (convert_recording.py lines 13-20,
96-102). -/
structure Page where
  stream_serial : Nat
  segments : List (List Nat)
  continued_packet : Bool
  begin_of_stream : Bool
  end_of_stream : Bool
deriving DecidableEq, Repr

/-- Polymorphic codec handler: `OggPCMHandler` or `W2GoHandler`. -/
inductive Handler where
  | pcm (s : OggPCMState)
  | w2go (s : W2GoState)
deriving DecidableEq, Repr

/-- Virtual dispatch of `handle_packet` on the handler variant. -/
def Handler.handle_packet : Handler → List Nat → Except Err Handler
  | .pcm s, packet => (s.handle_packet packet).map Handler.pcm
  | .w2go s, packet => (s.handle_packet packet).map Handler.w2go

/-- `CodecHandler.for_codec` (lines 105-112): tag `"PCM     "` builds a
fresh PCM handler, `"RODEWgo2"` a fresh telemetry handler, anything else
raises the unknown-codec error. -/
def for_codec (codec_id : List Nat) : Except Err Handler :=
  if codec_id = pcmTag then .ok (.pcm OggPCMState.start)
  else if codec_id = rodeTag then .ok (.w2go W2GoState.start)
  else .error (.unknownCodec codec_id)

/-- The `handlers` dict of `decode`, as an association list. -/
abbrev Handlers := List (Nat × Handler)

/-- `handlers[serial]` lookup. -/
def lookupH (hs : Handlers) (k : Nat) : Option Handler :=
  (hs.find? fun p => p.1 == k).map fun p => p.2

/-- `handlers[serial] = h` dict assignment (replaces any prior binding). -/
def insertH (hs : Handlers) (k : Nat) (v : Handler) : Handlers :=
  (k, v) :: hs.filter fun p => p.1 != k

/-- `handlers.pop(serial)` dict removal. -/
def popH (hs : Handlers) (k : Nat) : Handlers :=
  hs.filter fun p => p.1 != k

/-- One iteration of the page loop of `decode` (lines 192-206): reject
continued packets, create/replace the handler on a begin-of-stream page,
look the handler up by serial, dispatch every segment to it in order, and
drop the handler on an end-of-stream page. -/
def decodeStep (hs : Handlers) (page : Page) : Except Err Handlers :=
  if page.continued_packet then .error .unsupportedSplitPackets
  else
    (if page.begin_of_stream then
      match page.segments with
      | [] => .error .indexError
      | seg0 :: _ => (for_codec (seg0.take 8)).map fun h => insertH hs page.stream_serial h
     else .ok hs) >>= fun hs1 =>
    match lookupH hs1 page.stream_serial with
    | none => .error (.keyError page.stream_serial)
    | some handler =>
      (page.segments.foldlM Handler.handle_packet handler).map fun h1 =>
        if page.end_of_stream then popH (insertH hs1 page.stream_serial h1) page.stream_serial
        else insertH hs1 page.stream_serial h1

/-- The page loop of `decode` from an arbitrary starting dict. -/
def decodeAux (hs : Handlers) (pages : List Page) : Except Err Handlers :=
  pages.foldlM decodeStep hs

/-- `decode` (lines 187-208), starting from the empty handler dict and
returning the final handler states. -/
def decode (pages : List Page) : Except Err Handlers :=
  decodeAux [] pages

/-- C4: a page with the `continued_packet` flag set makes `decode` fail
immediately with the unsupported-split-packet error as soon as the page is
reached, whatever the handler dict holds and whatever pages follow — no
handler is created for it and none of its segments is dispatched, so no
partial or merged output arises from that page. -/
theorem continued_packet_rejected (hs : Handlers) (page : Page) (rest : List Page)
    (h : page.continued_packet = true) :
    decodeStep hs page = .error .unsupportedSplitPackets ∧
    decodeAux hs (page :: rest) = .error .unsupportedSplitPackets := by
  have h1 : decodeStep hs page = .error .unsupportedSplitPackets := by
    unfold decodeStep
    rw [if_pos h]
  refine ⟨h1, ?_⟩
  rw [decodeAux, List.foldlM_cons, h1]
  rfl

/-- Witness for C4: a concrete continued page is rejected. -/
theorem continued_packet_rejected_witness :
    decodeStep [] ⟨1, [[0]], true, false, false⟩ = .error .unsupportedSplitPackets ∧
    decodeAux [] [⟨1, [[0]], true, false, false⟩] = .error .unsupportedSplitPackets :=
  continued_packet_rejected [] ⟨1, [[0]], true, false, false⟩ [] rfl

/-- C9: a non-begin-of-stream page whose serial has no active handler
(never opened, or already closed by an end-of-stream page) makes `decode`
fail with the dict-lookup `KeyError`, not with any of the documented format
errors and not by skipping the page. -/
theorem missing_handler_keyerror (hs : Handlers) (page : Page) (rest : List Page)
    (hc : page.continued_packet = false) (hb : page.begin_of_stream = false)
    (hl : lookupH hs page.stream_serial = none) :
    decodeStep hs page = .error (.keyError page.stream_serial) ∧
    decodeAux hs (page :: rest) = .error (.keyError page.stream_serial) := by
  have h1 : decodeStep hs page = .error (.keyError page.stream_serial) := by
    unfold decodeStep
    rw [hc, if_neg (by simp), hb, if_neg (by simp), exceptOkBind, hl]
  refine ⟨h1, ?_⟩
  rw [decodeAux, List.foldlM_cons, h1]
  rfl

/-- Witness for C9: a data page arriving after its stream was closed by an
end-of-stream page (the handler dict has dropped serial 7). -/
theorem missing_handler_keyerror_witness :
    decodeStep [] ⟨7, [[1, 2]], false, false, false⟩ = .error (.keyError 7) ∧
    decodeAux [] [⟨7, [[1, 2]], false, false, false⟩] = .error (.keyError 7) :=
  missing_handler_keyerror [] ⟨7, [[1, 2]], false, false, false⟩ [] rfl rfl rfl

/-- The tail of `decodeStep` once a handler `h0` has been created for a
begin-of-stream page: dispatch all segments to `h0`, store the result under
the page's serial, and drop it again on end-of-stream.  Note the prior
dict entry for that serial plays no role. -/
def dispatchWith (hs : Handlers) (page : Page) (h0 : Handler) : Except Err Handlers :=
  (page.segments.foldlM Handler.handle_packet h0).map fun h1 =>
    if page.end_of_stream then popH (insertH hs page.stream_serial h1) page.stream_serial
    else insertH hs page.stream_serial h1

lemma lookupH_insertH_self (hs : Handlers) (k : Nat) (v : Handler) :
    lookupH (insertH hs k v) k = some v := by
  unfold lookupH insertH
  rw [List.find?_cons_of_pos _ (by simp)]
  rfl

lemma filter_ne_idem (hs : Handlers) (k : Nat) :
    (hs.filter fun p => p.1 != k).filter (fun p => p.1 != k)
      = hs.filter fun p => p.1 != k := by
  induction hs with
  | nil => rfl
  | cons a t ih =>
    by_cases ha : (a.1 != k) = true
    · simp only [List.filter_cons, ha, if_true, ih]
    · simp [List.filter_cons, ha, ih]

lemma insertH_insertH (hs : Handlers) (k : Nat) (v w : Handler) :
    insertH (insertH hs k v) k w = insertH hs k w := by
  unfold insertH
  rw [List.filter_cons_of_neg (by simp), filter_ne_idem]

lemma decodeStep_bos (hs : Handlers) (page : Page) (seg0 : List Nat)
    (segs : List (List Nat)) (hc : page.continued_packet = false)
    (hb : page.begin_of_stream = true) (hsg : page.segments = seg0 :: segs)
    (h0 : Handler) (hfc : for_codec (seg0.take 8) = .ok h0) :
    decodeStep hs page = dispatchWith hs page h0 := by
  unfold decodeStep dispatchWith
  rw [hc, if_neg (by simp), hb, if_pos rfl, hsg]
  simp only [hfc, Except.map, exceptOkBind, lookupH_insertH_self, insertH_insertH]

/-- C5: on a begin-of-stream page the router takes the first 8 bytes of the
page's first segment as the codec tag: `"PCM     "` yields a fresh PCM
handler and `"RODEWgo2"` a fresh telemetry handler, in both cases replacing
any prior handler for that serial (the step equals `dispatchWith`, which
ignores the dict's previous entry for the serial); any other tag makes
`decode` fail with the unknown-codec error before any further page is
processed. -/
theorem bos_codec_selection (hs : Handlers) (page : Page) (seg0 : List Nat)
    (segs : List (List Nat)) (hc : page.continued_packet = false)
    (hb : page.begin_of_stream = true) (hsg : page.segments = seg0 :: segs) :
    (seg0.take 8 = pcmTag →
      decodeStep hs page = dispatchWith hs page (.pcm OggPCMState.start)) ∧
    (seg0.take 8 = rodeTag →
      decodeStep hs page = dispatchWith hs page (.w2go W2GoState.start)) ∧
    (seg0.take 8 ≠ pcmTag → seg0.take 8 ≠ rodeTag →
      ∀ rest, decodeAux hs (page :: rest) = .error (.unknownCodec (seg0.take 8))) := by
  refine ⟨fun ht => ?_, fun ht => ?_, fun h1 h2 rest => ?_⟩
  · exact decodeStep_bos hs page seg0 segs hc hb hsg _ (by rw [ht]; rfl)
  · exact decodeStep_bos hs page seg0 segs hc hb hsg _ (by rw [ht]; rfl)
  · have hfc : for_codec (seg0.take 8) = .error (.unknownCodec (seg0.take 8)) := by
      unfold for_codec
      rw [if_neg h1, if_neg h2]
    have hstep : decodeStep hs page = .error (.unknownCodec (seg0.take 8)) := by
      unfold decodeStep
      rw [hc, if_neg (by simp), hb, if_pos rfl, hsg]
      simp only [hfc, Except.map, exceptErrorBind]
    rw [decodeAux, List.foldlM_cons, hstep]
    rfl

/-- Witness for C5: a begin-of-stream page whose tag is eight `9` bytes is
rejected with the unknown-codec error. -/
theorem bos_codec_selection_witness :
    decodeAux [] [⟨3, [[9, 9, 9, 9, 9, 9, 9, 9, 1]], false, true, false⟩]
      = .error (.unknownCodec [9, 9, 9, 9, 9, 9, 9, 9]) :=
  (bos_codec_selection [] ⟨3, [[9, 9, 9, 9, 9, 9, 9, 9, 1]], false, true, false⟩
    [9, 9, 9, 9, 9, 9, 9, 9, 1] [] rfl rfl rfl).2.2 (by decide) (by decide) []

/-- The handler dict restricted to one serial. -/
def restrictH (hs : Handlers) (k : Nat) : Handlers :=
  hs.filter fun p => p.1 == k

lemma find?_filter_self (t : Handlers) (k : Nat) :
    (t.filter fun p => p.1 == k).find? (fun p => p.1 == k)
      = t.find? fun p => p.1 == k := by
  induction t with
  | nil => rfl
  | cons a t ih =>
    by_cases ha : (a.1 == k) = true
    · rw [List.filter_cons_of_pos (by exact ha), List.find?_cons_of_pos _ (by exact ha),
        List.find?_cons_of_pos _ (by exact ha)]
    · rw [List.filter_cons_of_neg (by simpa using ha),
        List.find?_cons_of_neg _ (by simpa using ha), ih]

lemma lookupH_restrictH (hs : Handlers) (k : Nat) :
    lookupH (restrictH hs k) k = lookupH hs k := by
  unfold lookupH restrictH
  rw [find?_filter_self]

lemma filter_ne_then_eq (hs : Handlers) (k : Nat) :
    (hs.filter fun p => p.1 != k).filter (fun p => p.1 == k) = [] := by
  induction hs with
  | nil => rfl
  | cons a t ih =>
    by_cases ha : (a.1 == k) = true
    · have hak : a.1 = k := by simpa using ha
      rw [List.filter_cons_of_neg (by simp [hak]), ih]
    · rw [List.filter_cons_of_pos (by simpa using ha),
        List.filter_cons_of_neg (by simpa using ha), ih]

lemma filter_eq_then_ne (hs : Handlers) (k : Nat) :
    (hs.filter fun p => p.1 == k).filter (fun p => p.1 != k) = [] := by
  induction hs with
  | nil => rfl
  | cons a t ih =>
    by_cases ha : (a.1 == k) = true
    · have hak : a.1 = k := by simpa using ha
      rw [List.filter_cons_of_pos (by exact ha), List.filter_cons_of_neg (by simp [hak]), ih]
    · rw [List.filter_cons_of_neg (by simpa using ha), ih]

lemma restrictH_insertH_self (hs : Handlers) (k : Nat) (v : Handler) :
    restrictH (insertH hs k v) k = insertH (restrictH hs k) k v := by
  unfold restrictH insertH
  rw [List.filter_cons_of_pos (by simp), filter_ne_then_eq, filter_eq_then_ne]

lemma restrictH_popH_self (hs : Handlers) (k : Nat) :
    restrictH (popH hs k) k = popH (restrictH hs k) k := by
  unfold restrictH popH
  rw [filter_ne_then_eq, filter_eq_then_ne]

lemma filter_comm_ne (hs : Handlers) (j k : Nat) (h : j ≠ k) :
    (hs.filter fun p => p.1 != j).filter (fun p => p.1 == k)
      = hs.filter fun p => p.1 == k := by
  induction hs with
  | nil => rfl
  | cons a t ih =>
    by_cases hak : (a.1 == k) = true
    · have hk : a.1 = k := by simpa using hak
      rw [List.filter_cons_of_pos (by simp [hk]; omega),
        List.filter_cons_of_pos (by exact hak), List.filter_cons_of_pos (by exact hak), ih]
    · by_cases haj : (a.1 != j) = true
      · rw [List.filter_cons_of_pos (by exact haj), List.filter_cons_of_neg (by simpa using hak),
          List.filter_cons_of_neg (by simpa using hak), ih]
      · rw [List.filter_cons_of_neg (by simpa using haj),
          List.filter_cons_of_neg (by simpa using hak), ih]

lemma restrictH_insertH_ne (hs : Handlers) (j k : Nat) (v : Handler) (h : j ≠ k) :
    restrictH (insertH hs j v) k = restrictH hs k := by
  unfold restrictH insertH
  rw [List.filter_cons_of_neg (by simp; omega)]
  exact filter_comm_ne hs j k h

lemma restrictH_popH_ne (hs : Handlers) (j k : Nat) (h : j ≠ k) :
    restrictH (popH hs j) k = restrictH hs k :=
  filter_comm_ne hs j k h

/-- A successful step on a page of serial `k`, started from the dict
restricted to `k`, succeeds with the restricted result: the step reads and
writes only the entry for its own serial. -/
lemma decodeStep_restrict_same (hs hs1 : Handlers) (page : Page)
    (h : decodeStep hs page = .ok hs1) :
    decodeStep (restrictH hs page.stream_serial) page
      = .ok (restrictH hs1 page.stream_serial) := by
  unfold decodeStep at h ⊢
  cases hcp : page.continued_packet with
  | true => rw [if_pos hcp] at h; exact absurd h (by simp)
  | false =>
    rw [if_neg (by simp [hcp])] at h
    rw [if_neg (by simp)]
    cases hbs : page.begin_of_stream with
    | false =>
      rw [if_neg (by simp [hbs]), exceptOkBind] at h
      rw [if_neg (by simp), exceptOkBind]
      cases hlk : lookupH hs page.stream_serial with
      | none => rw [hlk] at h; exact absurd h (by simp)
      | some h0 =>
        simp only [hlk] at h
        simp only [lookupH_restrictH, hlk]
        cases hfd : page.segments.foldlM Handler.handle_packet h0 with
        | error e =>
          simp only [hfd, Except.map] at h
          exact absurd h (by simp)
        | ok h1 =>
          simp only [hfd, Except.map] at h
          simp only [Except.map]
          injection h with h
          rw [← h, apply_ite (fun x => restrictH x page.stream_serial)]
          simp only [restrictH_popH_self, restrictH_insertH_self]
    | true =>
      rw [if_pos hbs] at h
      rw [if_pos (show (true : Bool) = true from rfl)]
      cases hsg : page.segments with
      | nil => rw [hsg] at h; simp [exceptErrorBind] at h
      | cons seg0 segs =>
        rw [hsg] at h
        cases hfc : for_codec (seg0.take 8) with
        | error e =>
          simp only [hfc, Except.map, exceptErrorBind] at h
          exact absurd h (by simp)
        | ok h0 =>
          simp only [hfc, Except.map, exceptOkBind, lookupH_insertH_self] at h
          simp only [hfc, Except.map, exceptOkBind, lookupH_insertH_self]
          cases hfd : (seg0 :: segs).foldlM Handler.handle_packet h0 with
          | error e =>
            simp only [hfd, Except.map] at h
            exact absurd h (by simp)
          | ok h1 =>
            simp only [hfd, Except.map] at h
            simp only [Except.map]
            injection h with h
            rw [← h, apply_ite (fun x => restrictH x page.stream_serial)]
            simp only [restrictH_popH_self, restrictH_insertH_self]

/-- A successful step on a page of some other serial leaves the dict
restricted to `a` untouched. -/
lemma decodeStep_restrict_other (a : Nat) (hs hs1 : Handlers) (page : Page)
    (hne : page.stream_serial ≠ a) (h : decodeStep hs page = .ok hs1) :
    restrictH hs1 a = restrictH hs a := by
  unfold decodeStep at h
  cases hcp : page.continued_packet with
  | true => rw [if_pos hcp] at h; exact absurd h (by simp)
  | false =>
    rw [if_neg (by simp [hcp])] at h
    cases hbs : page.begin_of_stream with
    | false =>
      rw [if_neg (by simp [hbs]), exceptOkBind] at h
      cases hlk : lookupH hs page.stream_serial with
      | none => rw [hlk] at h; exact absurd h (by simp)
      | some h0 =>
        simp only [hlk] at h
        cases hfd : page.segments.foldlM Handler.handle_packet h0 with
        | error e =>
          simp only [hfd, Except.map] at h
          exact absurd h (by simp)
        | ok h1 =>
          simp only [hfd, Except.map] at h
          injection h with h
          rw [← h, apply_ite (fun x => restrictH x a)]
          simp only [restrictH_popH_ne _ _ _ hne, restrictH_insertH_ne _ _ _ _ hne,
            ite_self]
    | true =>
      rw [if_pos hbs] at h
      cases hsg : page.segments with
      | nil => rw [hsg] at h; simp [exceptErrorBind] at h
      | cons seg0 segs =>
        rw [hsg] at h
        cases hfc : for_codec (seg0.take 8) with
        | error e =>
          simp only [hfc, Except.map, exceptErrorBind] at h
          exact absurd h (by simp)
        | ok h0 =>
          simp only [hfc, Except.map, exceptOkBind, lookupH_insertH_self] at h
          cases hfd : (seg0 :: segs).foldlM Handler.handle_packet h0 with
          | error e =>
            simp only [hfd, Except.map] at h
            exact absurd h (by simp)
          | ok h1 =>
            simp only [hfd, Except.map] at h
            injection h with h
            rw [← h, apply_ite (fun x => restrictH x a)]
            simp only [restrictH_popH_ne _ _ _ hne, restrictH_insertH_ne _ _ _ _ hne,
              ite_self]

/-- Restriction lemma for the whole page loop: a successful run projects,
for any serial `a`, onto a successful run over just the pages of serial
`a`, with the dict restricted to `a`. -/
lemma decodeAux_restrict (a : Nat) (ps : List Page) (hs hs1 : Handlers)
    (h : decodeAux hs ps = .ok hs1) :
    decodeAux (restrictH hs a) (ps.filter fun p => p.stream_serial == a)
      = .ok (restrictH hs1 a) := by
  induction ps generalizing hs with
  | nil =>
    rw [decodeAux, List.foldlM_nil] at h
    injection h with h
    rw [h, List.filter_nil, decodeAux, List.foldlM_nil]
    rfl
  | cons p ps ih =>
    rw [decodeAux, List.foldlM_cons] at h
    cases hstep : decodeStep hs p with
    | error e => rw [hstep, exceptErrorBind] at h; exact absurd h (by simp)
    | ok hs2 =>
      rw [hstep, exceptOkBind] at h
      by_cases hpa : p.stream_serial = a
      · rw [List.filter_cons_of_pos (by simp [hpa]), decodeAux, List.foldlM_cons]
        have hsame := decodeStep_restrict_same hs hs2 p hstep
        rw [hpa] at hsame
        rw [hsame, exceptOkBind]
        exact ih hs2 h
      · rw [List.filter_cons_of_neg (by simp [hpa])]
        rw [← decodeStep_restrict_other a hs hs2 p hpa hstep]
        exact ih hs2 h

/-- C7: stream isolation.  For a container interleaving pages of two
streams with distinct serials, a successful decode projects onto each
serial: running the router on just the pages of serial `a` (in the same
order, segments dispatched in page order and in segment order within each
page) produces exactly the `a`-entry of the final handler dict, and
likewise for `b` — so the handler keyed by each serial receives exactly
the segments of its own pages, and its decode state is neither read nor
written when a page of the other serial is dispatched. -/
theorem stream_isolation (a b : Nat) (hab : a ≠ b) (ps : List Page)
    (hser : ∀ p ∈ ps, p.stream_serial = a ∨ p.stream_serial = b)
    (hs1 : Handlers) (h : decode ps = .ok hs1) :
    decode (ps.filter fun p => p.stream_serial == a) = .ok (restrictH hs1 a) ∧
    decode (ps.filter fun p => p.stream_serial == b) = .ok (restrictH hs1 b) :=
  ⟨decodeAux_restrict a ps [] hs1 h, decodeAux_restrict b ps [] hs1 h⟩

/-- First page of the C7 witness run: opens telemetry stream 1 (status). -/
def isoPage1 : Page := ⟨1, [statusHeaderPacket], false, true, false⟩

/-- Second page: opens telemetry stream 2 (peak sub-type). -/
def isoPage2 : Page := ⟨2, [rodeTag ++ [80]], false, true, false⟩

/-- Third page: a 17-byte status packet for stream 1 (one record consumed,
flag byte `0x04` at offset 4, one trailing byte kept). -/
def isoPage3 : Page :=
  ⟨1, [[0, 0, 0, 0, 4, 0, 0, 0, 0, 0, 0, 0, 0, 0, 0, 0, 0]], false, false, false⟩

/-- Fourth page: a peak data packet for stream 2. -/
def isoPage4 : Page := ⟨2, [[9, 9]], false, false, false⟩

/-- Witness for C7: an a-b-a-b interleaving of two telemetry streams; each
projected run reproduces exactly its own serial's final handler state. -/
theorem stream_isolation_witness :
    decode ([isoPage1, isoPage2, isoPage3, isoPage4].filter
        fun p => p.stream_serial == 1)
      = .ok (restrictH [(2, .w2go ⟨2, some .peak, [], 0, []⟩),
          (1, .w2go ⟨2, some .status, [0], 1, [0]⟩)] 1) ∧
    decode ([isoPage1, isoPage2, isoPage3, isoPage4].filter
        fun p => p.stream_serial == 2)
      = .ok (restrictH [(2, .w2go ⟨2, some .peak, [], 0, []⟩),
          (1, .w2go ⟨2, some .status, [0], 1, [0]⟩)] 2) :=
  stream_isolation 1 2 (by decide) [isoPage1, isoPage2, isoPage3, isoPage4]
    (by decide) _ (by decide)
